import Mathlib

/-!
Verification of the text-processing core of `book_editor_agent.py`
(document chunker, edit validator, response cleaner, cost/time estimators).

Python strings are modelled as lists of characters (`Str`), Python's float
arithmetic on word ratios and prices as exact rational arithmetic (`ℚ`), and
the one fallible operation (`word_ratio = edited_words / original_words`,
which raises `ZeroDivisionError` when the original has no words) as an
`Option` result.  Python's whitespace set is modelled by its six ASCII
whitespace characters.
-/

/-- Python strings, modelled as lists of characters. -/
abbrev Str := List Char

/-- The ASCII whitespace characters recognised by Python's `str.split()` and
`str.strip()` (Unicode-only whitespace code points are not modelled). -/
def pyIsSpace (c : Char) : Bool :=
  c = ' ' || c = '\t' || c = '\n' || c = '\r' || c = '\x0b' || c = '\x0c'

/-- Python `text.split()`: split on runs of whitespace, dropping empty pieces. -/
def pySplit : Str → List Str
  | [] => []
  | [c] => if pyIsSpace c then [] else [[c]]
  | c :: d :: rest =>
    if pyIsSpace c then pySplit (d :: rest)
    else if pyIsSpace d then [c] :: pySplit rest
    else
      match pySplit (d :: rest) with
      | [] => [[c]]
      | w :: ws => (c :: w) :: ws

/-- Python `text.split("\n\n")`: split at every non-overlapping occurrence of
two consecutive newlines, scanning left to right. -/
def splitPar : Str → List Str
  | [] => [[]]
  | [c] => [[c]]
  | c :: d :: rest =>
    if c = '\n' ∧ d = '\n' then [] :: splitPar rest
    else
      match splitPar (d :: rest) with
      | [] => [[c]]
      | h :: t => (c :: h) :: t

/-- Python `"\n\n".join(pieces)`. -/
def joinPar : List Str → Str
  | [] => []
  | [p] => p
  | p :: q :: ps => p ++ '\n' :: '\n' :: joinPar (q :: ps)

/-- Python `" ".join(words)`. -/
def joinSpace : List Str → Str
  | [] => []
  | [w] => w
  | w :: v :: ws => w ++ ' ' :: joinSpace (v :: ws)

/-- Python `text.strip()`. -/
def pyStrip (s : Str) : Str :=
  ((s.dropWhile pyIsSpace).reverse.dropWhile pyIsSpace).reverse

/-- Python's substring test `needle in hay`. -/
def containsSub (needle : Str) : Str → Bool
  | [] => needle.isEmpty
  | c :: rest => needle.isPrefixOf (c :: rest) || containsSub needle rest

/-- Python `hay.split(needle)[0]`: everything strictly before the first
occurrence of `needle` (the whole string when there is no occurrence). -/
def takeBefore (needle : Str) : Str → Str
  | [] => []
  | c :: rest =>
    if needle.isPrefixOf (c :: rest) then [] else c :: takeBefore needle rest

/-- Python `hay.rfind(needle, start)`: the largest index `i ≥ start` at which
`needle` occurs in `hay`, if any. -/
def lastIndexFrom (needle hay : Str) (start : Nat) : Option Nat :=
  ((List.range (hay.length + 1)).filter
      (fun i => decide (start ≤ i) && needle.isPrefixOf (hay.drop i))).getLast?

/-- Python truthiness of the optional `review_notes` argument
(`if review_notes:`): `None` and the empty string are falsy. -/
def pyTruthy : Option Str → Bool
  | none => false
  | some s => !s.isEmpty

/-! ## Word and paragraph statistics (`validate_edited_text`, lines 1084–1090) -/

/-- `len(text.split())`. -/
def wordCount (s : Str) : Nat := (pySplit s).length

/-- `[p for p in text.split('\n\n') if p.strip()]` — the non-empty
(non-whitespace-only) paragraphs of a text, in order. -/
def paragraphsOf (text : Str) : List Str :=
  (splitPar text).filter (fun p => !(pyStrip p).isEmpty)

/-- `len([p for p in text.split('\n\n') if p.strip()])`. -/
def paragraphCount (s : Str) : Nat := (paragraphsOf s).length

/-- `word_ratio = edited_words / original_words`, as an exact rational. -/
def wordRatio (original edited : Str) : ℚ :=
  (wordCount edited : ℚ) / (wordCount original : ℚ)

/-- The summary-indicator phrases of `validate_edited_text` (lines 1098–1101). -/
def summary_phrases : List Str :=
  ["the text below".data, "this text".data, "this is a".data, "below is a".data,
   "condensed version".data, "shorter version".data, "summary of".data]

/-- `" ".join(edited_text.split()[:100]).lower()` (line 1104). -/
def first100Words (edited : Str) : Str :=
  (joinSpace ((pySplit edited).take 100)).map Char.toLower

/-- `any(phrase in first_100_words for phrase in summary_phrases)` (line 1105). -/
def hasSummaryIndicator (edited : Str) : Bool :=
  summary_phrases.any (fun phrase => containsSub phrase (first100Words edited))

/-- `validate_edited_text(original_text, edited_text, review_notes=None)`
(lines 1078–1136).  Returns `none` where Python raises `ZeroDivisionError`
(original word count 0), otherwise `some verdict`. -/
def validate_edited_text (original_text edited_text : Str)
    (review_notes : Option Str := none) : Option Bool :=
  if wordCount original_text = 0 then none
  else some (
    if pyTruthy review_notes then
      -- review notes exist: only flag if very heavily shortened
      if wordRatio original_text edited_text < 0.5 then false else true
    else if wordRatio original_text edited_text < 0.9 then false
    else if (paragraphCount edited_text : ℚ) < (paragraphCount original_text : ℚ) * 0.9
        ∧ 3 < paragraphCount original_text then false
    else if hasSummaryIndicator edited_text then false
    else true)

/-! ## `cleanup_response` (lines 1138–1176) -/

/-- The sign-off phrases stripped by `cleanup_response` (lines 1142–1153). -/
def ending_phrases : List Str :=
  ["This text has been edited".data,
   "I have edited the text".data,
   "The edited text follows".data,
   "Here is the edited text".data,
   "I\x27ve maintained the full length".data,
   "I\x27ve preserved all content".data,
   "This edit maintains".data,
   "Edited according to".data,
   "Following the style guidelines".data,
   "As per the instructions".data]

/-- One step of the phrase loop (lines 1157–1160):
`if phrase in cleaned: cleaned = cleaned.split(phrase)[0].strip()`. -/
def phraseStep (cleaned phrase : Str) : Str :=
  if containsSub phrase cleaned then pyStrip (takeBefore phrase cleaned) else cleaned

/-- The phrase-truncation pass of `cleanup_response` (lines 1156–1160). -/
def cleanupPhrases (text : Str) : Str :=
  ending_phrases.foldl phraseStep text

/-- The delimiter tokens of the second pass (line 1163). -/
def ending_delimiters : List Str :=
  ["---".data, "***".data, "###".data, "```".data, "//".data]

/-- The meta-commentary keywords of the second pass (line 1173). -/
def delim_keywords : List Str :=
  ["edit".data, "note".data, "comment".data, "text".data, "follow".data]

/-- One step of the delimiter loop (lines 1164–1174).  `int(len(cleaned)*0.85)`
is modelled as `len * 85 / 100` in `ℕ`; the two agree for every length below
`4·10¹⁴` (Python's `0.85` float is within `2.7·10⁻¹⁷` of 17/20). -/
def delimStep (cleaned delim : Str) : Str :=
  let search_start := cleaned.length * 85 / 100
  let last_part := cleaned.drop search_start
  if containsSub delim last_part then
    match lastIndexFrom delim cleaned search_start with
    | none => cleaned
    | some delimiter_pos =>
      let text_after := (cleaned.drop delimiter_pos).map Char.toLower
      if delim_keywords.any (fun kw => containsSub kw text_after) then
        pyStrip (cleaned.take delimiter_pos)
      else cleaned
  else cleaned

/-- The delimiter pass of `cleanup_response` (lines 1162–1174). -/
def delimPass (text : Str) : Str :=
  ending_delimiters.foldl delimStep text

/-- `cleanup_response(text)` (lines 1138–1176): the phrase pass followed by
the delimiter pass. -/
def cleanup_response (text : Str) : Str :=
  delimPass (cleanupPhrases text)

/-! ## `estimate_cost` (lines 1178–1222) and `estimate_processing_time`
(lines 1275–1324) -/

/-- Price per million tokens (input, output) — `pricing` values. -/
def opus_pricing : ℚ × ℚ := (15, 75)

def sonnet_pricing : ℚ × ℚ := (3, 15)

def haiku_pricing : ℚ × ℚ := (0.25, 1.25)

def sonnet35_pricing : ℚ × ℚ := (3, 15)

def haiku35_pricing : ℚ × ℚ := (0.25, 1.25)

def sonnet37_pricing : ℚ × ℚ := (5, 15)

def claude21_pricing : ℚ × ℚ := (0.8, 2.4)

/-- The `pricing` table (lines 1181–1189). -/
def pricing : List (Str × ℚ × ℚ) :=
  [("claude-3-opus-20240229".data, opus_pricing),
   ("claude-3-sonnet-20240229".data, sonnet_pricing),
   ("claude-3-haiku-20240307".data, haiku_pricing),
   ("claude-3-5-sonnet-20240620".data, sonnet35_pricing),
   ("claude-3-5-haiku-20240620".data, haiku35_pricing),
   ("claude-3-7-sonnet-20250219".data, sonnet37_pricing),
   ("claude-2.1".data, claude21_pricing)]

/-- `estimate_cost(model, input_tokens, output_tokens)` (lines 1178–1222). -/
def estimate_cost (model : Str) (input_tokens output_tokens : Nat) : ℚ :=
  let model_pricing : ℚ × ℚ :=
    match pricing.find? (fun e => e.1 == model) with
    | some e => e.2
    | none =>
      if containsSub "3-7".data model && containsSub "sonnet".data model then
        sonnet37_pricing
      else if containsSub "3-5".data model && containsSub "sonnet".data model then
        sonnet35_pricing
      else if containsSub "3-5".data model && containsSub "haiku".data model then
        haiku35_pricing
      else if containsSub "opus".data model then opus_pricing
      else if containsSub "sonnet".data model then sonnet_pricing
      else if containsSub "haiku".data model then haiku_pricing
      else if containsSub "2.1".data model then claude21_pricing
      else haiku_pricing  -- "If model not found, use haiku pricing (lowest)"
  (input_tokens : ℚ) * model_pricing.1 / 1000000
    + (output_tokens : ℚ) * model_pricing.2 / 1000000

/-- The `processing_speeds` table in words per second (lines 1288–1296). -/
def processing_speeds : List (Str × ℚ) :=
  [("claude-3-opus-20240229".data, 500),
   ("claude-3-sonnet-20240229".data, 800),
   ("claude-3-haiku-20240307".data, 1200),
   ("claude-3-5-sonnet-20240620".data, 850),
   ("claude-3-5-haiku-20240620".data, 1300),
   ("claude-3-7-sonnet-20250219".data, 900),
   ("claude-2.1".data, 700)]

/-- Rate selection of `estimate_processing_time` (lines 1298–1319):
starts from the default 800 and overrides on an exact or family match. -/
def processing_rate (model : Str) : ℚ :=
  match processing_speeds.find? (fun e => e.1 == model) with
  | some e => e.2
  | none =>
    if containsSub "3-7".data model && containsSub "sonnet".data model then 900
    else if containsSub "3-5".data model && containsSub "sonnet".data model then 850
    else if containsSub "3-5".data model && containsSub "haiku".data model then 1300
    else if containsSub "opus".data model then 500
    else if containsSub "sonnet".data model then 800
    else if containsSub "haiku".data model then 1200
    else if containsSub "2.1".data model then 700
    else 800  -- "Default to Claude 3 Sonnet rate if model not recognized"

/-- `estimate_processing_time(word_count, model)` (lines 1275–1324), minutes. -/
def estimate_processing_time (word_count : Nat) (model : Str) : ℚ :=
  ((word_count : ℚ) / processing_rate model + 5) / 60

/-! ## `chunk_document` (lines 1224–1273) -/

/-- The paragraph-accumulation loop of `chunk_document` (lines 1247–1266),
returning the groups of paragraphs that make up each chunk (the Python code
joins each group with `"\n\n"` at the moment it is closed; joining at the end
via `List.map joinPar` yields the same chunk strings). -/
def chunkGroups (max_words : Nat) : List Str → List Str → Nat → List (List Str)
  | [], current, _ => if current = [] then [] else [current]
  | p :: rest, current, cnt =>
    let pw := (pySplit p).length
    if max_words < cnt + pw ∧ current ≠ [] then
      current :: chunkGroups max_words rest [p] pw
    else
      chunkGroups max_words rest (current ++ [p]) (cnt + pw)

/-- `chunk_document(text, max_words, preserve_paragraphs=True)`
(lines 1224–1273).  (With `preserve_paragraphs=False` and `max_words = 0`
Python raises `ValueError` from `range`'s zero step; that unreachable-under-
the-spec corner is modelled by `List.toChunks 0`.) -/
def chunk_document (text : Str) (max_words : Nat)
    (preserve_paragraphs : Bool := true) : List Str :=
  let words := pySplit text
  if words.length ≤ max_words then [text]
  else if preserve_paragraphs then
    (chunkGroups max_words (paragraphsOf text) [] 0).map joinPar
  else
    (words.toChunks max_words).map joinSpace

/-! ## Basic facts about the string primitives -/

theorem containsSub_iff (needle hay : Str) :
    containsSub needle hay = true ↔ needle <:+: hay := by
  induction hay with
  | nil => simp [containsSub, List.isEmpty_iff]
  | cons c rest ih =>
    simp [containsSub, ih, List.infix_cons_iff, List.isPrefixOf_iff_prefix]

theorem containsSub_eq_false (needle hay : Str) :
    containsSub needle hay = false ↔ ¬ needle <:+: hay := by
  rw [← containsSub_iff]
  cases containsSub needle hay <;> simp

theorem containsSub_false_mono {needle s t : Str} (h : containsSub needle s = false)
    (hts : t <:+: s) : containsSub needle t = false := by
  rw [containsSub_eq_false] at h ⊢
  exact fun hc => h (hc.trans hts)

theorem takeBefore_pref (needle hay : Str) : takeBefore needle hay <+: hay := by
  induction hay with
  | nil => simp [takeBefore]
  | cons c rest ih =>
    rw [takeBefore]
    split
    · exact List.nil_prefix
    · exact (List.cons_prefix_cons).mpr ⟨rfl, ih⟩

theorem takeBefore_not_contains (needle hay : Str) (hne : needle ≠ []) :
    ¬ needle <:+: takeBefore needle hay := by
  induction hay with
  | nil => simp [takeBefore, List.infix_nil, hne]
  | cons c rest ih =>
    rw [takeBefore]
    split
    · simp [List.infix_nil, hne]
    · rename_i hpre
      intro hinf
      rcases (List.infix_cons_iff).mp hinf with hp | hi
      · exact hpre ((List.isPrefixOf_iff_prefix).mpr
          (hp.trans ((List.cons_prefix_cons).mpr ⟨rfl, takeBefore_pref needle rest⟩)))
      · exact ih hi

theorem reverse_dropWhile_pref (p : Char → Bool) (l : Str) :
    (l.reverse.dropWhile p).reverse <+: l := by
  rw [← List.reverse_suffix, List.reverse_reverse]
  exact List.dropWhile_suffix p

theorem pyStrip_shrinks (s : Str) : pyStrip s <:+: s :=
  (reverse_dropWhile_pref pyIsSpace (s.dropWhile pyIsSpace)).isInfix.trans
    (List.dropWhile_suffix pyIsSpace).isInfix

/-! ## Facts about the response cleaner -/

theorem phraseStep_shrinks (c p : Str) : phraseStep c p <:+: c := by
  unfold phraseStep
  split
  · exact (pyStrip_shrinks _).trans (takeBefore_pref p c).isInfix
  · exact List.infix_refl _

theorem phraseStep_not_contains (c p : Str) (hp : p ≠ []) :
    containsSub p (phraseStep c p) = false := by
  unfold phraseStep
  split
  · rw [containsSub_eq_false]
    intro hc
    exact takeBefore_not_contains p c hp (hc.trans (pyStrip_shrinks _))
  · rename_i h
    exact Bool.eq_false_iff.mpr h

theorem phraseStep_id_of_not_contains (c p : Str) (h : containsSub p c = false) :
    phraseStep c p = c := by
  unfold phraseStep
  rw [h]
  simp

theorem foldl_shrinks {α : Type} (step : Str → α → Str)
    (hstep : ∀ c a, step c a <:+: c) :
    ∀ (l : List α) (c : Str), List.foldl step c l <:+: c := by
  intro l
  induction l with
  | nil => intro c; exact List.infix_refl _
  | cons a l ih => intro c; exact (ih (step c a)).trans (hstep c a)

theorem foldl_phraseStep_not_contains :
    ∀ (l : List Str) (c : Str) (p : Str), p ∈ l → p ≠ [] →
      containsSub p (List.foldl phraseStep c l) = false := by
  intro l
  induction l with
  | nil => intro c p hp; cases hp
  | cons q l ih =>
    intro c p hp hpne
    rcases List.mem_cons.mp hp with rfl | hmem
    · exact containsSub_false_mono (phraseStep_not_contains c p hpne)
        (foldl_shrinks phraseStep phraseStep_shrinks l (phraseStep c p))
    · exact ih (phraseStep c q) p hmem hpne

theorem foldl_phraseStep_fixed :
    ∀ (l : List Str) (c : Str), (∀ p ∈ l, containsSub p c = false) →
      List.foldl phraseStep c l = c := by
  intro l
  induction l with
  | nil => intro c _; rfl
  | cons q l ih =>
    intro c h
    rw [List.foldl_cons, phraseStep_id_of_not_contains c q (h q (List.mem_cons_self q l))]
    exact ih c (fun p hp => h p (List.mem_cons_of_mem q hp))

theorem ending_phrases_ne_nil : ∀ p ∈ ending_phrases, p ≠ [] := by decide

theorem cleanupPhrases_not_contains (t p : Str) (hp : p ∈ ending_phrases) :
    containsSub p (cleanupPhrases t) = false :=
  foldl_phraseStep_not_contains ending_phrases t p hp (ending_phrases_ne_nil p hp)

theorem cleanupPhrases_idem (t : Str) :
    cleanupPhrases (cleanupPhrases t) = cleanupPhrases t :=
  foldl_phraseStep_fixed ending_phrases (cleanupPhrases t)
    (fun p hp => cleanupPhrases_not_contains t p hp)

theorem cleanupPhrases_shrinks (t : Str) : cleanupPhrases t <:+: t :=
  foldl_shrinks phraseStep phraseStep_shrinks ending_phrases t

theorem delimStep_shrinks (c d : Str) : delimStep c d <:+: c := by
  unfold delimStep
  simp only []
  split
  · split
    · exact List.infix_refl _
    · split
      · exact (pyStrip_shrinks _).trans (List.take_prefix _ _).isInfix
      · exact List.infix_refl _
  · exact List.infix_refl _

theorem delimPass_shrinks (t : Str) : delimPass t <:+: t :=
  foldl_shrinks delimStep delimStep_shrinks ending_delimiters t

/-- C10: for every input text `t`, `cleanup_response t` is a contiguous
substring of `t` (the cleaner only truncates at a phrase or delimiter and
trims surrounding whitespace), so its length never exceeds `t`'s length. -/
theorem cleanup_response_substring (t : Str) :
    cleanup_response t <:+: t ∧ (cleanup_response t).length ≤ t.length := by
  have h : cleanup_response t <:+: t :=
    (delimPass_shrinks (cleanupPhrases t)).trans (cleanupPhrases_shrinks t)
  exact ⟨h, h.length_le⟩

/-- C8: the sign-off phrases are truncated (strictly before their first
occurrence, cumulatively in list order), so no sign-off phrase survives in
`cleanup_response`'s output; in particular
`cleanup_response "Body text. Here is the edited text: blah"` is
`"Body text."`. -/
theorem cleanup_response_signoff (t p : Str) (hp : p ∈ ending_phrases) :
    containsSub p (cleanup_response t) = false ∧
    cleanup_response "Body text. Here is the edited text: blah".data
      = "Body text.".data := by
  refine ⟨?_, by decide⟩
  unfold cleanup_response
  exact containsSub_false_mono (cleanupPhrases_not_contains t p hp)
    (delimPass_shrinks (cleanupPhrases t))

theorem cleanup_response_signoff_witness :
    "Here is the edited text".data ∈ ending_phrases ∧
    containsSub "Here is the edited text".data
      (cleanup_response "Some plain response".data) = false :=
  ⟨by decide,
   (cleanup_response_signoff "Some plain response".data
      "Here is the edited text".data (by decide)).1⟩

/-- A 100-character input on which `cleanup_response` is not idempotent: the
first application truncates at the trailing "```edit" (position 93, inside
the final-15% window), which moves the earlier "---edit" (position 80) into
the final-15% window of the shortened 93-character text, so the second
application truncates again. -/
def idemCounterexample : Str :=
  ("aaaaaaaaaaaaaaaaaaaaaaaaaaaaaaaaaaaaaaaaaaaaaaaaaaaaaaaaaaaaaaaaaaaaaaaaaaaaaaaa"
    ++ "---editxxxxxx```edit").data

set_option maxRecDepth 20000 in
/-- C4 counterexample: `cleanup_response` is not idempotent. -/
theorem cleanup_response_not_idempotent :
    cleanup_response (cleanup_response idemCounterexample)
      ≠ cleanup_response idemCounterexample := by decide

/-- C4 amended: `cleanup_response` is idempotent on every input on which the
delimiter pass leaves the phrase-pass output unchanged (in particular
whenever no delimiter truncation fires); full idempotence fails because a
delimiter truncation can move an earlier delimiter into the final-15% window
of the shortened text. -/
theorem cleanup_response_idem_of_delimPass_fixed (t : Str)
    (h : delimPass (cleanupPhrases t) = cleanupPhrases t) :
    cleanup_response (cleanup_response t) = cleanup_response t := by
  unfold cleanup_response
  rw [h, cleanupPhrases_idem, h]

theorem cleanup_response_idem_witness :
    delimPass (cleanupPhrases "Plain body.".data)
        = cleanupPhrases "Plain body.".data ∧
    cleanup_response (cleanup_response "Plain body.".data)
        = cleanup_response "Plain body.".data :=
  ⟨by decide, cleanup_response_idem_of_delimPass_fixed _ (by decide)⟩

/-! ## Facts about paragraph splitting and joining -/

/-- Whether a text contains the `"\n\n"` paragraph separator. -/
def hasParSep : Str → Bool
  | [] => false
  | [_] => false
  | c :: d :: rest => if c = '\n' ∧ d = '\n' then true else hasParSep (d :: rest)

theorem splitPar_ne_nil (s : Str) : splitPar s ≠ [] := by
  match s with
  | [] => simp [splitPar]
  | [c] => simp [splitPar]
  | c :: d :: rest =>
    rw [splitPar]
    split
    · simp
    · split <;> simp

theorem joinPar_cons_head (c : Char) (h : Str) (t : List Str) :
    joinPar ((c :: h) :: t) = c :: joinPar (h :: t) := by
  cases t with
  | nil => rfl
  | cons q t => rfl

theorem joinPar_head_pref (h : Str) (t : List Str) : h <+: joinPar (h :: t) := by
  cases t with
  | nil => exact List.prefix_refl _
  | cons q t => exact ⟨'\n' :: '\n' :: joinPar (q :: t), rfl⟩

theorem splitPar_eq_sep {c d : Char} (rest : Str) (hcd : c = '\n' ∧ d = '\n') :
    splitPar (c :: d :: rest) = [] :: splitPar rest := by
  rw [splitPar, if_pos hcd]

theorem splitPar_eq_cons {c d : Char} {rest h : Str} {t : List Str}
    (hcd : ¬(c = '\n' ∧ d = '\n')) (hsp : splitPar (d :: rest) = h :: t) :
    splitPar (c :: d :: rest) = (c :: h) :: t := by
  rw [splitPar, if_neg hcd, hsp]

theorem joinPar_splitPar (s : Str) : joinPar (splitPar s) = s := by
  induction s using splitPar.induct with
  | case1 => rfl
  | case2 c => rfl
  | case3 c d rest hcd ih =>
    rw [splitPar_eq_sep rest hcd]
    cases hsr : splitPar rest with
    | nil => exact absurd hsr (splitPar_ne_nil _)
    | cons h t =>
      rw [hsr] at ih
      rw [joinPar, hcd.1, hcd.2, ih, List.nil_append]
  | case4 c d rest hcd hnil ih => exact absurd hnil (splitPar_ne_nil _)
  | case5 c d rest hcd h t hsp ih =>
    rw [hsp] at ih
    rw [splitPar_eq_cons hcd hsp, joinPar_cons_head, ih]

theorem splitPar_head_pref {s : Str} {h : Str} {t : List Str}
    (hsp : splitPar s = h :: t) : h <+: s := by
  have hj := joinPar_splitPar s
  rw [hsp] at hj
  exact hj ▸ joinPar_head_pref h t

theorem splitPar_not_hasParSep (s : Str) : ∀ p ∈ splitPar s, hasParSep p = false := by
  induction s using splitPar.induct with
  | case1 =>
    intro p hp
    rw [splitPar, List.mem_singleton] at hp
    subst hp; rfl
  | case2 c =>
    intro p hp
    rw [splitPar, List.mem_singleton] at hp
    subst hp; rfl
  | case3 c d rest hcd ih =>
    intro p hp
    rw [splitPar_eq_sep rest hcd] at hp
    rcases List.mem_cons.mp hp with rfl | hmem
    · rfl
    · exact ih p hmem
  | case4 c d rest hcd hnil ih => exact absurd hnil (splitPar_ne_nil _)
  | case5 c d rest hcd h t hsp ih =>
    intro p hp
    rw [splitPar_eq_cons hcd hsp] at hp
    rcases List.mem_cons.mp hp with rfl | hmem
    · have hh : hasParSep h = false := by
        apply ih
        rw [hsp]; exact List.mem_cons_self _ _
      have hpre : h <+: d :: rest := splitPar_head_pref hsp
      match h, hh, hpre with
      | [], _, _ => rfl
      | e :: h', hh, hpre =>
        obtain ⟨rfl, -⟩ := (List.cons_prefix_cons).mp hpre
        rw [hasParSep, if_neg hcd]
        exact hh
    · apply ih
      rw [hsp]; exact List.mem_cons_of_mem _ hmem

theorem splitPar_head_nil : ∀ (s : Str) (t : List Str),
    splitPar s = [] :: t → t ≠ [] → ∃ l, s = '\n' :: '\n' :: l := by
  intro s t hs ht
  match s with
  | [] =>
    rw [splitPar] at hs
    cases hs
    exact absurd rfl ht
  | [c] =>
    rw [splitPar] at hs
    cases hs
  | c :: d :: rest =>
    rw [splitPar] at hs
    by_cases hcd : c = '\n' ∧ d = '\n'
    · exact ⟨rest, by rw [hcd.1, hcd.2]⟩
    · rw [if_neg hcd] at hs
      cases hsp : splitPar (d :: rest) with
      | nil => exact absurd hsp (splitPar_ne_nil _)
      | cons h t' =>
        rw [hsp] at hs
        cases hs

theorem splitPar_dropLast_getLast (s : Str) :
    ∀ p ∈ (splitPar s).dropLast, p.getLast? ≠ some '\n' := by
  induction s using splitPar.induct with
  | case1 => intro p hp; rw [splitPar] at hp; simp at hp
  | case2 c => intro p hp; rw [splitPar] at hp; simp at hp
  | case3 c d rest hcd ih =>
    intro p hp
    rw [splitPar_eq_sep rest hcd] at hp
    cases hsr : splitPar rest with
    | nil => exact absurd hsr (splitPar_ne_nil _)
    | cons h t =>
      rw [hsr, List.dropLast_cons₂] at hp
      rcases List.mem_cons.mp hp with rfl | hmem
      · simp
      · apply ih
        rw [hsr]; exact hmem
  | case4 c d rest hcd hnil ih => exact absurd hnil (splitPar_ne_nil _)
  | case5 c d rest hcd h t hsp ih =>
    intro p hp
    rw [splitPar_eq_cons hcd hsp] at hp
    cases t with
    | nil => simp at hp
    | cons q t' =>
      rw [List.dropLast_cons₂] at hp
      rcases List.mem_cons.mp hp with rfl | hmem
      · match h, hsp with
        | [], hsp =>
          obtain ⟨l, hl⟩ := splitPar_head_nil (d :: rest) (q :: t') hsp (by simp)
          have hd : d = '\n' := by
            have := congrArg (fun s => s.headI) hl
            simpa using this
          have hc : c ≠ '\n' := fun hcn => hcd ⟨hcn, hd⟩
          simpa using hc
        | e :: h', hsp =>
          rw [List.getLast?_cons_cons]
          apply ih
          rw [hsp, List.dropLast_cons₂]
          exact List.mem_cons_self _ _
      · apply ih
        rw [hsp, List.dropLast_cons₂]
        exact List.mem_cons_of_mem _ hmem

theorem splitPar_eq_self (p : Str) (hp : hasParSep p = false) : splitPar p = [p] := by
  induction p using splitPar.induct with
  | case1 => rfl
  | case2 c => rfl
  | case3 c d rest hcd ih =>
    rw [hasParSep, if_pos hcd] at hp
    cases hp
  | case4 c d rest hcd hnil ih => exact absurd hnil (splitPar_ne_nil _)
  | case5 c d rest hcd h t hsp ih =>
    rw [hasParSep, if_neg hcd] at hp
    have heq := ih hp
    rw [hsp] at heq
    injection heq with h1 h2
    subst h1; subst h2
    rw [splitPar_eq_cons hcd hsp]

theorem splitPar_append_sep :
    ∀ (p : Str), hasParSep p = false → p.getLast? ≠ some '\n' →
      ∀ w : Str, splitPar (p ++ '\n' :: '\n' :: w) = p :: splitPar w
  | [], _, _, w => by
    rw [List.nil_append, splitPar, if_pos ⟨rfl, rfl⟩]
  | [c], _, hlast, w => by
    have hc : c ≠ '\n' := by simpa using hlast
    have h0 : splitPar ('\n' :: '\n' :: w) = [] :: splitPar w := by
      rw [splitPar, if_pos ⟨rfl, rfl⟩]
    rw [List.cons_append, List.nil_append, splitPar, if_neg (fun h => hc h.1), h0]
  | c :: d :: p', hsep, hlast, w => by
    have hcd : ¬(c = '\n' ∧ d = '\n') := by
      intro h
      rw [hasParSep, if_pos h] at hsep
      cases hsep
    have hsep' : hasParSep (d :: p') = false := by
      rwa [hasParSep, if_neg hcd] at hsep
    have hlast' : (d :: p').getLast? ≠ some '\n' := by
      rwa [List.getLast?_cons_cons] at hlast
    rw [List.cons_append, List.cons_append, splitPar, if_neg hcd,
      ← List.cons_append, splitPar_append_sep (d :: p') hsep' hlast' w]

/-- Re-splitting the `"\n\n"`-join of a list of pieces recovers the pieces,
provided no piece contains the separator and no piece except the last ends
with a newline. -/
theorem splitPar_joinPar : ∀ (ps : List Str), ps ≠ [] →
    (∀ p ∈ ps, hasParSep p = false) →
    (∀ p ∈ ps.dropLast, p.getLast? ≠ some '\n') →
    splitPar (joinPar ps) = ps
  | [], h, _, _ => absurd rfl h
  | [p], _, h1, _ => by
    rw [joinPar]
    exact splitPar_eq_self p (h1 p (List.mem_cons_self _ _))
  | p :: q :: ps', _, h1, h2 => by
    rw [joinPar,
      splitPar_append_sep p (h1 p (List.mem_cons_self _ _))
        (h2 p (by rw [List.dropLast_cons₂]; exact List.mem_cons_self _ _)),
      splitPar_joinPar (q :: ps') (by simp)
        (fun r hr => h1 r (List.mem_cons_of_mem p hr))
        (fun r hr => h2 r (by rw [List.dropLast_cons₂]; exact List.mem_cons_of_mem p hr))]

/-- Filtering preserves "every element but possibly the last satisfies `P`". -/
theorem filter_dropLast_forall {α : Type} (P : α → Prop) (f : α → Bool) :
    ∀ (l : List α), (∀ p ∈ l.dropLast, P p) →
      ∀ p ∈ (l.filter f).dropLast, P p := by
  intro l
  induction l with
  | nil => intro _ p hp; simp at hp
  | cons x l ih =>
    intro h p hp
    by_cases hl : l = []
    · subst hl
      revert hp
      rw [List.filter_cons]
      cases f x <;> simp
    · have hrest : ∀ p ∈ l.dropLast, P p := by
        intro r hr
        exact h r (by
          rw [List.dropLast_cons_of_ne_nil hl]
          exact List.mem_cons_of_mem _ hr)
      rw [List.filter_cons] at hp
      cases hfx : f x with
      | false =>
        rw [hfx] at hp
        simp only [Bool.false_eq_true, if_false] at hp
        exact ih hrest p hp
      | true =>
        rw [hfx] at hp
        simp only [if_true] at hp
        cases hfl : List.filter f l with
        | nil => rw [hfl] at hp; simp at hp
        | cons y t =>
          rw [hfl, List.dropLast_cons₂] at hp
          rcases List.mem_cons.mp hp with rfl | hmem
          · exact h p (by
              rw [List.dropLast_cons_of_ne_nil hl]
              exact List.mem_cons_self _ _)
          · exact ih hrest p (by rw [hfl]; exact hmem)

/-! ## Words, non-empty paragraphs, and word counts of joins -/

theorem pyStrip_ne_nil {p : Str} {c : Char} (hc : c ∈ p) (hcs : pyIsSpace c = false) :
    pyStrip p ≠ [] := by
  unfold pyStrip
  intro h
  rw [List.reverse_eq_nil_iff, List.dropWhile_eq_nil_iff] at h
  have h1 : c ∈ p.dropWhile pyIsSpace := by
    have hsplit : c ∈ p.takeWhile pyIsSpace ++ p.dropWhile pyIsSpace := by
      rw [List.takeWhile_append_dropWhile]; exact hc
    rcases List.mem_append.mp hsplit with h' | h'
    · have := List.mem_takeWhile_imp h'
      rw [hcs] at this
      cases this
    · exact h'
  have h2 := h c (List.mem_reverse.mpr h1)
  rw [hcs] at h2
  cases h2

theorem mem_joinPar {c : Char} : ∀ {ps : List Str}, c ∈ joinPar ps →
    c = '\n' ∨ ∃ p ∈ ps, c ∈ p
  | [], h => by cases h
  | [p], h => Or.inr ⟨p, List.mem_cons_self _ _, h⟩
  | p :: q :: ps, h => by
    rw [joinPar] at h
    rcases List.mem_append.mp h with h' | h'
    · exact Or.inr ⟨p, List.mem_cons_self _ _, h'⟩
    · rcases List.mem_cons.mp h' with rfl | h''
      · exact Or.inl rfl
      · rcases List.mem_cons.mp h'' with rfl | h3
        · exact Or.inl rfl
        · rcases mem_joinPar h3 with hnl | ⟨r, hr, hcr⟩
          · exact Or.inl hnl
          · exact Or.inr ⟨r, List.mem_cons_of_mem p hr, hcr⟩

theorem pySplit_ne_nil_nonspace : ∀ (s : Str), pySplit s ≠ [] →
    ∃ c ∈ s, pyIsSpace c = false
  | [], h => absurd rfl h
  | [c], h => by
    by_cases hc : pyIsSpace c = true
    · rw [pySplit, if_pos hc] at h
      exact absurd rfl h
    · exact ⟨c, List.mem_cons_self _ _, Bool.eq_false_iff.mpr hc⟩
  | c :: d :: rest, h => by
    by_cases hc : pyIsSpace c = true
    · rw [pySplit, if_pos hc] at h
      obtain ⟨e, he, hes⟩ := pySplit_ne_nil_nonspace (d :: rest) h
      exact ⟨e, List.mem_cons_of_mem c he, hes⟩
    · exact ⟨c, List.mem_cons_self _ _, Bool.eq_false_iff.mpr hc⟩

theorem paragraphsOf_ne_nil {D : Str} (h : pySplit D ≠ []) : paragraphsOf D ≠ [] := by
  obtain ⟨c, hc, hcs⟩ := pySplit_ne_nil_nonspace D h
  have hc' : c ∈ joinPar (splitPar D) := by rw [joinPar_splitPar]; exact hc
  rcases mem_joinPar hc' with rfl | ⟨p, hp, hcp⟩
  · exact absurd hcs (by decide)
  · have hmem : p ∈ paragraphsOf D := by
      rw [paragraphsOf, List.mem_filter]
      refine ⟨hp, ?_⟩
      have := pyStrip_ne_nil hcp hcs
      simpa [List.isEmpty_iff] using this
    exact List.ne_nil_of_mem hmem

theorem pySplit_cons_ne_nil {c : Char} (hc : pyIsSpace c = false) (xs : Str) :
    pySplit (c :: xs) ≠ [] := by
  match xs with
  | [] =>
    rw [pySplit, if_neg (by simp [hc])]
    simp
  | d :: rest =>
    rw [pySplit, if_neg (by simp [hc])]
    split
    · simp
    · split <;> simp

theorem pySplit_append_space (w : Char) (hw : pyIsSpace w = true) :
    ∀ (a b : Str), pySplit (a ++ w :: b) = pySplit a ++ pySplit b
  | [], b => by
    cases b with
    | nil => simp [pySplit, hw]
    | cons y ys => simp [pySplit, hw]
  | [c], b => by
    by_cases hc : pyIsSpace c = true
    · have h0 := pySplit_append_space w hw [] b
      simp only [List.nil_append, pySplit] at h0
      simp [pySplit, hc, h0]
    · simp [pySplit, hc, hw]
  | c :: d :: a', b => by
    by_cases hc : pyIsSpace c = true
    · have hrec := pySplit_append_space w hw (d :: a') b
      rw [List.cons_append] at hrec
      simp [pySplit, hc, hrec]
    · by_cases hd : pyIsSpace d = true
      · have hrec := pySplit_append_space w hw a' b
        simp [pySplit, hc, hd, hrec]
      · have hrec := pySplit_append_space w hw (d :: a') b
        rw [List.cons_append] at hrec
        rw [List.cons_append, List.cons_append, pySplit, if_neg hc, if_neg hd, hrec]
        rw [pySplit, if_neg hc, if_neg hd]
        cases hsp : pySplit (d :: a') with
        | nil => exact absurd hsp (pySplit_cons_ne_nil (Bool.eq_false_iff.mpr hd) a')
        | cons w0 ws => simp

theorem pySplit_joinPar : ∀ (g : List Str),
    pySplit (joinPar g) = (g.map pySplit).flatten
  | [] => rfl
  | [p] => by simp [joinPar]
  | p :: q :: g => by
    have h0 := pySplit_append_space '\n' rfl [] (joinPar (q :: g))
    simp only [List.nil_append, pySplit] at h0
    rw [joinPar, pySplit_append_space '\n' rfl p ('\n' :: joinPar (q :: g)),
      h0, pySplit_joinPar (q :: g)]
    simp

theorem wordCount_joinPar (g : List Str) :
    wordCount (joinPar g) = (g.map wordCount).sum := by
  show (pySplit (joinPar g)).length = _
  rw [pySplit_joinPar, List.length_flatten, List.map_map]
  rfl

/-! ## Facts about the chunk loop -/

theorem joinPar_cons_ne (p : Str) (r : List Str) (hr : r ≠ []) :
    joinPar (p :: r) = p ++ '\n' :: '\n' :: joinPar r := by
  cases r with
  | nil => exact absurd rfl hr
  | cons q rs => rfl

theorem joinPar_append : ∀ (a b : List Str), a ≠ [] → b ≠ [] →
    joinPar (a ++ b) = joinPar a ++ '\n' :: '\n' :: joinPar b
  | [], _, ha, _ => absurd rfl ha
  | [p], b, _, hb => by
    rw [List.singleton_append, joinPar_cons_ne p b hb, joinPar]
  | p :: q :: a', b, _, hb => by
    have h1 := joinPar_append (q :: a') b (by simp) hb
    rw [List.cons_append, joinPar_cons_ne p ((q :: a') ++ b) (by simp), h1,
      joinPar_cons_ne p (q :: a') (by simp)]
    simp

theorem flatten_ne_nil_of {gs : List (List Str)} (hne : gs ≠ [])
    (h : ∀ g ∈ gs, g ≠ []) : gs.flatten ≠ [] := by
  cases gs with
  | nil => exact absurd rfl hne
  | cons g gs =>
    rw [List.flatten_cons]
    intro hnil
    exact h g (List.mem_cons_self _ _) (List.append_eq_nil.mp hnil).1

theorem joinPar_map_joinPar : ∀ (gs : List (List Str)), (∀ g ∈ gs, g ≠ []) →
    joinPar (gs.map joinPar) = joinPar gs.flatten
  | [], _ => rfl
  | [g], _ => by simp [joinPar]
  | g :: g' :: gs, h => by
    have hsub : ∀ x ∈ g' :: gs, x ≠ [] := fun x hx => h x (List.mem_cons_of_mem g hx)
    have h1 := joinPar_map_joinPar (g' :: gs) hsub
    have h2 : (g :: g' :: gs).flatten = g ++ (g' :: gs).flatten := rfl
    rw [List.map_cons, joinPar_cons_ne (joinPar g) ((g' :: gs).map joinPar) (by simp),
      h1, h2,
      joinPar_append g (g' :: gs).flatten (h g (List.mem_cons_self _ _))
        (flatten_ne_nil_of (by simp) hsub)]

theorem chunkGroups_flatten (B : Nat) :
    ∀ (rem current : List Str) (cnt : Nat),
      (chunkGroups B rem current cnt).flatten = current ++ rem
  | [], current, cnt => by
    simp only [chunkGroups]
    split
    · rename_i h; simp [h]
    · simp
  | p :: rest, current, cnt => by
    simp only [chunkGroups]
    split
    · rw [List.flatten_cons, chunkGroups_flatten B rest [p] _]
      simp
    · rw [chunkGroups_flatten B rest (current ++ [p]) _]
      simp

theorem chunkGroups_forall_ne_nil (B : Nat) :
    ∀ (rem current : List Str) (cnt : Nat),
      ∀ g ∈ chunkGroups B rem current cnt, g ≠ []
  | [], current, cnt => by
    intro g hg
    simp only [chunkGroups] at hg
    split at hg
    · cases hg
    · rename_i h
      rw [List.mem_singleton] at hg
      subst hg; exact h
  | p :: rest, current, cnt => by
    intro g hg
    simp only [chunkGroups] at hg
    split at hg
    · rename_i h
      rcases List.mem_cons.mp hg with rfl | hmem
      · exact h.2
      · exact chunkGroups_forall_ne_nil B rest [p] _ g hmem
    · exact chunkGroups_forall_ne_nil B rest (current ++ [p]) _ g hg

theorem chunkGroups_budget (B : Nat) :
    ∀ (rem current : List Str) (cnt : Nat),
      cnt = (current.map wordCount).sum →
      ((current.map wordCount).sum ≤ B ∨ ∃ p, current = [p]) →
      ∀ g ∈ chunkGroups B rem current cnt,
        (g.map wordCount).sum ≤ B ∨ ∃ p, g = [p]
  | [], current, cnt => by
    intro hcnt hinv g hg
    simp only [chunkGroups] at hg
    split at hg
    · cases hg
    · rw [List.mem_singleton] at hg
      subst hg; exact hinv
  | p :: rest, current, cnt => by
    intro hcnt hinv g hg
    simp only [chunkGroups] at hg
    split at hg
    · rcases List.mem_cons.mp hg with rfl | hmem
      · exact hinv
      · exact chunkGroups_budget B rest [p] _ (by simp [wordCount]) (Or.inr ⟨p, rfl⟩) g hmem
    · rename_i h
      refine chunkGroups_budget B rest (current ++ [p]) _ ?_ ?_ g hg
      · simp [hcnt, wordCount]
      · rcases not_and_or.mp h with h' | h'
        · left
          have hle : cnt + (pySplit p).length ≤ B := Nat.not_lt.mp h'
          rw [hcnt] at hle
          simpa [wordCount] using hle
        · right
          exact ⟨p, by simp [not_not.mp h']⟩

/-- C1: joining the chunks of `chunk_document D B` with the blank-line
separator and re-splitting on it, dropping whitespace-only segments, yields
exactly `D`'s sequence of non-empty paragraphs, in order. -/
theorem chunk_document_reassembly (D : Str) (B : Nat) (hB : 0 < B) :
    (splitPar (joinPar (chunk_document D B))).filter (fun p => !(pyStrip p).isEmpty)
      = paragraphsOf D := by
  by_cases hle : (pySplit D).length ≤ B
  · have hcd : chunk_document D B = [D] := by
      simp only [chunk_document]
      rw [if_pos hle]
    rw [hcd]
    rfl
  · have hwords : pySplit D ≠ [] := by
      intro hnil
      exact hle (by rw [hnil]; exact Nat.zero_le B)
    have hpsne : paragraphsOf D ≠ [] := paragraphsOf_ne_nil hwords
    have hcd : chunk_document D B = (chunkGroups B (paragraphsOf D) [] 0).map joinPar := by
      simp only [chunk_document]
      rw [if_neg hle]
      rfl
    rw [hcd]
    have hgne : ∀ g ∈ chunkGroups B (paragraphsOf D) [] 0, g ≠ [] :=
      chunkGroups_forall_ne_nil B (paragraphsOf D) [] 0
    have hflat : (chunkGroups B (paragraphsOf D) [] 0).flatten = paragraphsOf D := by
      rw [chunkGroups_flatten]; rfl
    rw [joinPar_map_joinPar _ hgne, hflat,
      splitPar_joinPar (paragraphsOf D) hpsne
        (fun p hp => splitPar_not_hasParSep D p (List.mem_of_mem_filter hp))
        (filter_dropLast_forall _ _ (splitPar D) (splitPar_dropLast_getLast D))]
    exact List.filter_eq_self.mpr (fun p hp => (List.mem_filter.mp hp).2)

theorem chunk_document_reassembly_witness :
    0 < 1 ∧
      (splitPar (joinPar (chunk_document "a b\n\nc d".data 1))).filter
          (fun p => !(pyStrip p).isEmpty)
        = paragraphsOf "a b\n\nc d".data :=
  ⟨Nat.one_pos, chunk_document_reassembly "a b\n\nc d".data 1 Nat.one_pos⟩

/-- C2: when `D` fits in the budget (also when empty) `chunk_document`
returns `[D]`; otherwise every chunk is within the word budget except chunks
that consist of a single over-budget paragraph, kept whole. -/
theorem chunk_document_budget (D : Str) (B : Nat) (hB : 0 < B) :
    (wordCount D ≤ B → chunk_document D B = [D]) ∧
    (B < wordCount D → ∀ c ∈ chunk_document D B,
      wordCount c ≤ B ∨ (B < wordCount c ∧ c ∈ paragraphsOf D)) := by
  constructor
  · intro h
    simp only [chunk_document]
    rw [if_pos (show (pySplit D).length ≤ B from h)]
  · intro h c hc
    have hcd : chunk_document D B = (chunkGroups B (paragraphsOf D) [] 0).map joinPar := by
      simp only [chunk_document]
      rw [if_neg (show ¬(pySplit D).length ≤ B from Nat.not_le.mpr h)]
      rfl
    rw [hcd] at hc
    obtain ⟨g, hg, rfl⟩ := List.mem_map.mp hc
    have hinv := chunkGroups_budget B (paragraphsOf D) [] 0 rfl
      (Or.inl (by simp)) g hg
    rcases hinv with hsum | ⟨p, rfl⟩
    · left
      rw [wordCount_joinPar]
      exact hsum
    · have hjp : joinPar [p] = p := rfl
      rw [hjp]
      by_cases hwp : wordCount p ≤ B
      · exact Or.inl hwp
      · refine Or.inr ⟨Nat.not_le.mp hwp, ?_⟩
        have hmem : p ∈ (chunkGroups B (paragraphsOf D) [] 0).flatten :=
          List.mem_flatten.mpr ⟨[p], hg, List.mem_cons_self _ _⟩
        rw [chunkGroups_flatten] at hmem
        simpa using hmem

theorem chunk_document_budget_witness :
    0 < 2 ∧
      ((wordCount "a b\n\nc d e\n\nf g h i".data ≤ 2 →
          chunk_document "a b\n\nc d e\n\nf g h i".data 2
            = ["a b\n\nc d e\n\nf g h i".data]) ∧
       (2 < wordCount "a b\n\nc d e\n\nf g h i".data →
          ∀ c ∈ chunk_document "a b\n\nc d e\n\nf g h i".data 2,
            wordCount c ≤ 2 ∨
              (2 < wordCount c ∧ c ∈ paragraphsOf "a b\n\nc d e\n\nf g h i".data))) :=
  ⟨by decide, chunk_document_budget "a b\n\nc d e\n\nf g h i".data 2 (by decide)⟩

example : splitPar "a\n\n\nb".data = [['a'], ['\n','b']] := by decide
example : splitPar "".data = [[]] := by decide
example : pyStrip " a b \n".data = ['a',' ','b'] := by decide
example : containsSub "bc".data "abcd".data = true := by decide
example : containsSub "bd".data "abcd".data = false := by decide
example : takeBefore "cd".data "abcdef".data = ['a','b'] := by decide
example : chunk_document "a b\n\nc d\n\ne f".data 2 = ["a b".data, "c d".data, "e f".data] := by decide
example : chunk_document "a b\n\nc d".data 10 = ["a b\n\nc d".data] := by decide
example : validate_edited_text "".data "a".data none = none := by
  simp [validate_edited_text, wordCount]; decide
example : cleanup_response "Body text. Here is the edited text: blah".data = "Body text.".data := by decide

/-! ## The edit validator: claims C3, C5, C6, C7 -/

/-- The rejection condition of claim C3 (no review notes): (a) word ratio
below 0.9, (b) paragraph collapse (original paragraph count above 3, edited
below 90% of it), (c) a summary indicator among the first 100 words. -/
def rejectCondition (o e : Str) : Prop :=
  wordRatio o e < 0.9 ∨
    (3 < paragraphCount o ∧ (paragraphCount e : ℚ) < (paragraphCount o : ℚ) * 0.9) ∨
    hasSummaryIndicator e = true

/-- C3: with at least one original word and no review notes,
`validate_edited_text` rejects exactly when one of the three conditions (a),
(b), (c) holds, and accepts otherwise. -/
theorem ite3_eq_false_iff (c1 c2 c3 : Prop) [Decidable c1] [Decidable c2] [Decidable c3] :
    ((if c1 then false else if c2 then false else if c3 then false else true) = false
      ↔ (c1 ∨ c2 ∨ c3)) ∧
    ((if c1 then false else if c2 then false else if c3 then false else true) = true
      ↔ ¬(c1 ∨ c2 ∨ c3)) := by
  by_cases h1 : c1 <;> by_cases h2 : c2 <;> by_cases h3 : c3 <;> simp [h1, h2, h3]

theorem validate_no_notes_spec (o e : Str) (h : 0 < wordCount o) :
    (validate_edited_text o e none = some false ↔ rejectCondition o e) ∧
    (validate_edited_text o e none = some true ↔ ¬ rejectCondition o e) := by
  have h0 : ¬ wordCount o = 0 := Nat.pos_iff_ne_zero.mp h
  have hrw : validate_edited_text o e none
      = some (if wordRatio o e < 0.9 then false
        else if (paragraphCount e : ℚ) < (paragraphCount o : ℚ) * 0.9
            ∧ 3 < paragraphCount o then false
        else if hasSummaryIndicator e = true then false else true) := by
    unfold validate_edited_text
    rw [if_neg h0, if_neg (by simp [pyTruthy] : ¬ pyTruthy none = true)]
  have hkey := ite3_eq_false_iff (wordRatio o e < 0.9)
    ((paragraphCount e : ℚ) < (paragraphCount o : ℚ) * 0.9 ∧ 3 < paragraphCount o)
    (hasSummaryIndicator e = true)
  rw [hrw]
  constructor
  · simp only [Option.some.injEq]
    rw [hkey.1]
    unfold rejectCondition
    rw [and_comm]
  · simp only [Option.some.injEq]
    rw [hkey.2]
    unfold rejectCondition
    rw [and_comm]

theorem validate_no_notes_spec_witness :
    0 < wordCount "a b c d e f g h i j".data ∧
      ((validate_edited_text "a b c d e f g h i j".data "a".data none = some false
          ↔ rejectCondition "a b c d e f g h i j".data "a".data) ∧
       (validate_edited_text "a b c d e f g h i j".data "a".data none = some true
          ↔ ¬ rejectCondition "a b c d e f g h i j".data "a".data)) :=
  ⟨by decide, validate_no_notes_spec _ _ (by decide)⟩

/-- C5: with at least one original word and (non-empty) review notes
present, `validate_edited_text` accepts exactly when the word ratio is at
least 0.5, regardless of paragraph counts or summary indicators. -/
theorem validate_with_notes_spec (o e rn : Str) (h : 0 < wordCount o) (hrn : rn ≠ []) :
    (validate_edited_text o e (some rn) = some true ↔ 0.5 ≤ wordRatio o e) ∧
    (validate_edited_text o e (some rn) = some false ↔ wordRatio o e < 0.5) := by
  have h0 : ¬ wordCount o = 0 := Nat.pos_iff_ne_zero.mp h
  have htruthy : pyTruthy (some rn) = true := by
    simp [pyTruthy, List.isEmpty_iff, hrn]
  have hrw : validate_edited_text o e (some rn)
      = some (if wordRatio o e < 0.5 then false else true) := by
    unfold validate_edited_text
    rw [if_neg h0, if_pos htruthy]
  rw [hrw]
  by_cases h1 : wordRatio o e < 0.5
  · simp [h1, not_le.mpr h1]
  · simp [h1, not_lt.mp h1]

theorem validate_with_notes_spec_witness :
    0 < wordCount "a b".data ∧ "x".data ≠ [] ∧
      ((validate_edited_text "a b".data "a".data (some "x".data) = some true
          ↔ 0.5 ≤ wordRatio "a b".data "a".data) ∧
       (validate_edited_text "a b".data "a".data (some "x".data) = some false
          ↔ wordRatio "a b".data "a".data < 0.5)) :=
  ⟨by decide, by decide, validate_with_notes_spec _ _ _ (by decide) (by decide)⟩

/-- C6 (code bug): on an original text with zero words (empty or
whitespace-only), Python's `validate_edited_text` raises `ZeroDivisionError`
at `word_ratio = edited_words / original_words` instead of accepting; the
embedding returns `none` (the error outcome) at exactly those inputs. -/
theorem validate_zero_original_raises :
    validate_edited_text [] "some edit".data none = none ∧
    validate_edited_text " \n ".data "some edit".data (some "notes".data) = none := by
  constructor <;> decide

/-- C7 counterexample: validating the text "this text is great" against an
identical copy of itself is rejected, because its first 100 words contain
the summary-indicator phrase "this text". -/
theorem validate_self_not_accepting :
    validate_edited_text "this text is great".data "this text is great".data none
      = some false := by
  have hwc : wordCount "this text is great".data = 4 := by decide
  have hpc : paragraphCount "this text is great".data = 1 := by decide
  have hsum : hasSummaryIndicator "this text is great".data = true := by decide
  have hratio : ¬ wordRatio "this text is great".data "this text is great".data < 0.9 := by
    unfold wordRatio
    rw [hwc]
    norm_num
  have hparas : ¬ ((paragraphCount "this text is great".data : ℚ)
      < (paragraphCount "this text is great".data : ℚ) * 0.9
      ∧ 3 < paragraphCount "this text is great".data) := by
    rw [hpc]
    norm_num
  unfold validate_edited_text
  rw [if_neg (by simp [hwc]), if_neg (by simp [pyTruthy] : ¬ pyTruthy none = true),
    if_neg hratio, if_neg hparas, if_pos hsum]

/-- C7 amended: validating a text against an identical copy of itself is
accepted whenever the text has at least one word and its first 100 words
contain no summary-indicator phrase. -/
theorem validate_self_accepts (X : Str) (hw : 0 < wordCount X)
    (hs : hasSummaryIndicator X = false) :
    validate_edited_text X X none = some true := by
  have h0 : ¬ wordCount X = 0 := Nat.pos_iff_ne_zero.mp hw
  have hr : wordRatio X X = 1 := by
    unfold wordRatio
    exact div_self (Nat.cast_ne_zero.mpr h0)
  have hratio : ¬ wordRatio X X < 0.9 := by rw [hr]; norm_num
  have hparas : ¬ ((paragraphCount X : ℚ) < (paragraphCount X : ℚ) * 0.9
      ∧ 3 < paragraphCount X) := by
    intro hcond
    have h1 : (paragraphCount X : ℚ) * 0.9 ≤ (paragraphCount X : ℚ) * 1 :=
      mul_le_mul_of_nonneg_left (by norm_num) (Nat.cast_nonneg _)
    rw [mul_one] at h1
    exact absurd (lt_of_lt_of_le hcond.1 h1) (lt_irrefl _)
  unfold validate_edited_text
  rw [if_neg h0, if_neg (by simp [pyTruthy] : ¬ pyTruthy none = true),
    if_neg hratio, if_neg hparas]
  simp [hs]

theorem validate_self_accepts_witness :
    0 < wordCount "hello world".data ∧
      hasSummaryIndicator "hello world".data = false ∧
      validate_edited_text "hello world".data "hello world".data none = some true :=
  ⟨by decide, by decide, validate_self_accepts "hello world".data (by decide) (by decide)⟩

/-! ## The estimators: claim C9 -/

/-- A model identifier is completely unknown when it appears in neither
table and contains none of the family substrings tested by the source. -/
def modelUnmatched (model : Str) : Prop :=
  pricing.find? (fun e => e.1 == model) = none ∧
  processing_speeds.find? (fun e => e.1 == model) = none ∧
  containsSub "opus".data model = false ∧
  containsSub "sonnet".data model = false ∧
  containsSub "haiku".data model = false ∧
  containsSub "2.1".data model = false

/-- C9 counterexample: 1300 words/second (claude-3-5-haiku) is the fastest
known rate, but for the unknown identifier "gpt-4" and 10400 words
`estimate_processing_time` does not compute the fastest-rate duration: it
uses the default claude-3-sonnet rate of 800. -/
theorem estimate_processing_time_not_fastest :
    (∀ e ∈ processing_speeds, e.2 ≤ (1300 : ℚ)) ∧
    ("claude-3-5-haiku-20240620".data, (1300 : ℚ)) ∈ processing_speeds ∧
    estimate_processing_time 10400 "gpt-4".data ≠ ((10400 : ℚ) / 1300 + 5) / 60 := by
  refine ⟨?_, ?_, ?_⟩
  · intro e he
    simp [processing_speeds] at he
    rcases he with rfl | rfl | rfl | rfl | rfl | rfl | rfl <;> norm_num
  · simp [processing_speeds]
  · have hrate : processing_rate "gpt-4".data = 800 := rfl
    unfold estimate_processing_time
    rw [hrate]
    norm_num

/-- C9 amended: for a completely unknown model identifier, `estimate_cost`
falls back to the cheapest tier (the claude-3-haiku prices, minimal over the
pricing table), while `estimate_processing_time` falls back to the default
claude-3-sonnet rate of 800 words/second — not the fastest known tier. -/
theorem estimate_fallbacks (model : Str) (h : modelUnmatched model)
    (input_tokens output_tokens word_count : Nat) :
    estimate_cost model input_tokens output_tokens
        = (input_tokens : ℚ) * 0.25 / 1000000 + (output_tokens : ℚ) * 1.25 / 1000000 ∧
    (∀ e ∈ pricing, (0.25 : ℚ) ≤ e.2.1 ∧ (1.25 : ℚ) ≤ e.2.2) ∧
    estimate_processing_time word_count model = ((word_count : ℚ) / 800 + 5) / 60 := by
  obtain ⟨hp, hs, hopus, hsonnet, hhaiku, h21⟩ := h
  refine ⟨?_, ?_, ?_⟩
  · unfold estimate_cost
    rw [hp]
    simp [hopus, hsonnet, hhaiku, h21, haiku_pricing]
  · intro e he
    simp [pricing] at he
    rcases he with rfl | rfl | rfl | rfl | rfl | rfl | rfl <;>
      norm_num [opus_pricing, sonnet_pricing, haiku_pricing, sonnet35_pricing,
        haiku35_pricing, sonnet37_pricing, claude21_pricing]
  · have hrate : processing_rate model = 800 := by
      unfold processing_rate
      rw [hs]
      simp [hopus, hsonnet, hhaiku, h21]
    unfold estimate_processing_time
    rw [hrate]

theorem estimate_fallbacks_witness :
    modelUnmatched "gpt-4".data ∧
      (estimate_cost "gpt-4".data 100 200
          = (100 : ℚ) * 0.25 / 1000000 + (200 : ℚ) * 1.25 / 1000000 ∧
       (∀ e ∈ pricing, (0.25 : ℚ) ≤ e.2.1 ∧ (1.25 : ℚ) ≤ e.2.2) ∧
       estimate_processing_time 300 "gpt-4".data = ((300 : ℚ) / 800 + 5) / 60) :=
  ⟨⟨rfl, rfl, rfl, rfl, rfl, rfl⟩,
   estimate_fallbacks "gpt-4".data ⟨rfl, rfl, rfl, rfl, rfl, rfl⟩ 100 200 300⟩
